import Mathlib

/-!
Shallow embedding of the TelSuit enhancement-and-reconciliation pipeline
(src/telsuit_cleaner.py and src/telsuit_enhancer.py).

Texts are lists of Unicode scalar values (Lean `Char`), matching Python `str`.
Python regular expressions used by the code are literal-keyword patterns whose
character classes are pairwise disjoint, so they are embedded as explicit
backtracking-free scanners with identical semantics.
-/

/-- Python regex `\s` on `str`: ASCII whitespace plus the Unicode whitespace
code points recognised by `str.isspace`. -/
def isPyWs (c : Char) : Bool :=
  let n := c.toNat
  (9 ≤ n && n ≤ 13) || n = 32 || (28 ≤ n && n ≤ 31) || n = 0x85 || n = 0xA0 ||
    n = 0x1680 || (0x2000 ≤ n && n ≤ 0x200A) || n = 0x2028 || n = 0x2029 ||
    n = 0x202F || n = 0x205F || n = 0x3000

/-- Character class `[A-Za-z0-9_\-]` of the primary SKU pattern. -/
def isSkuChar (c : Char) : Bool :=
  ('A' ≤ c && c ≤ 'Z') || ('a' ≤ c && c ≤ 'z') || ('0' ≤ c && c ≤ '9') ||
    c = '_' || c = '-'

/-- Python regex `\d` (Unicode decimal digits), modelled for the scripts the
repository handles: ASCII, Arabic-Indic and Extended Arabic-Indic digits. -/
def isDigitU (c : Char) : Bool :=
  let n := c.toNat
  (48 ≤ n && n ≤ 57) || (0x660 ≤ n && n ≤ 0x669) || (0x6F0 ≤ n && n ≤ 0x6F9)

/-- ASCII lower-casing, the behaviour of `re.IGNORECASE` on the keyword
alphabets the repository uses (ASCII letters; Persian has no case). -/
def lowerAscii (c : Char) : Char :=
  if 'A' ≤ c && c ≤ 'Z' then Char.ofNat (c.toNat + 32) else c

/-- Strip `k` from the front of `s`, case-insensitively; return the rest. -/
def stripCI : List Char → List Char → Option (List Char)
  | [], s => some s
  | _ :: _, [] => none
  | k :: ks, c :: cs => if lowerAscii k = lowerAscii c then stripCI ks cs else none

/-- Strip the literal `k` from the front of `s`; return the rest. -/
def stripLit : List Char → List Char → Option (List Char)
  | [], s => some s
  | _ :: _, [] => none
  | k :: ks, c :: cs => if k = c then stripLit ks cs else none

/-- Try the pattern `{keyword}\s*[:：]\s*(cap+)` anchored at the front of `s`
(src/telsuit_cleaner.py, `_extract_sku`); return the captured group.  The
classes `\s`, `[:：]` and the capture class are pairwise disjoint, so the
greedy scan below is exactly the regex semantics. -/
def matchSkuAt (cap : Char → Bool) (keyword s : List Char) : Option (List Char) :=
  match stripCI keyword s with
  | none => none
  | some s1 =>
    match s1.dropWhile isPyWs with
    | [] => none
    | d :: s3 =>
      if d = ':' || d = '：' then
        let capd := (s3.dropWhile isPyWs).takeWhile cap
        if capd = [] then none else some capd
      else none

/-- Model of `re.search`: try the anchored pattern at every start position, leftmost
match wins. -/
def searchSku (cap : Char → Bool) (keyword : List Char) : List Char → Option (List Char)
  | [] => matchSkuAt cap keyword []
  | c :: rest =>
    match matchSkuAt cap keyword (c :: rest) with
    | some r => some r
    | none => searchSku cap keyword rest

/-- Embedding of `_extract_sku(text, keyword)` from src/telsuit_cleaner.py: the primary
pattern captures `[A-Za-z0-9_\-]+`; on failure a digits-only fallback
captures `[\d]+`. -/
def extract_sku (text keyword : List Char) : Option (List Char) :=
  match searchSku isSkuChar keyword text with
  | some r => some r
  | none => searchSku isDigitU keyword text

/-! Entity Compositor (src/telsuit_enhancer.py, `process_single_message`) -/

/-- Number of UTF-16 code units a Unicode scalar occupies. -/
def utf16Units (c : Char) : Nat := if c.toNat < 0x10000 then 1 else 2

/-- Little-endian UTF-16 encoding of one scalar, as Python
`str.encode("utf-16-le")` produces it (surrogate pair for astral scalars). -/
def utf16LEBytesChar (c : Char) : List Nat :=
  let n := c.toNat
  if n < 0x10000 then [n % 256, n / 256]
  else
    let v := n - 0x10000
    let hi := 0xD800 + v / 0x400
    let lo := 0xDC00 + v % 0x400
    [hi % 256, hi / 256, lo % 256, lo / 256]

/-- Python `s.encode("utf-16-le")` as a byte list. -/
def utf16LEBytes (s : List Char) : List Nat := (s.map utf16LEBytesChar).flatten

/-- Python `len(s.encode("utf-16-le")) // 2`, the offset/length computation of the
enhancer. -/
def utf16UnitLen (s : List Char) : Nat := (utf16LEBytes s).length / 2

/-- Model of `re.finditer(re.escape(key), text)` start positions: leftmost,
non-overlapping (the scan resumes after each match's end).  `skip` counts the
characters still to be consumed by an already-recorded match. -/
def findOccGo (key : List Char) : List Char → Nat → Nat → List Nat
  | [], _, _ => []
  | c :: rest, pos, skip =>
    match skip with
    | skip' + 1 => findOccGo key rest (pos + 1) skip'
    | 0 =>
      if (c :: rest).take key.length = key then
        pos :: findOccGo key rest (pos + 1) (key.length - 1)
      else
        findOccGo key rest (pos + 1) 0

/-- All match start positions of the literal `key` in `text`, first position
reported as `pos`. -/
def findOcc (key text : List Char) (pos : Nat) : List Nat := findOccGo key text pos 0

/-- One emoji-map match: `(m.start(), m.end(), emoji, doc_id)`. -/
structure GlyphMatch where
  start : Nat
  stop : Nat
  key : List Char
  docId : Nat
deriving DecidableEq

/-- All matches of all emoji-map keys against the parsed text. -/
def matchesFor (gm : List (List Char × Nat)) (text : List Char) : List GlyphMatch :=
  (gm.map (fun em => (findOcc em.1 text 0).map
    (fun s => GlyphMatch.mk s (s + em.1.length) em.1 em.2))).flatten

/-- The kind of a formatting entity: a custom-glyph reference
(`MessageEntityCustomEmoji`) or an opaque pre-existing entity. -/
inductive EntityKind where
  | customEmoji (docId : Nat)
  | other (tag : Nat)
deriving DecidableEq

/-- A formatting range: UTF-16 offset, UTF-16 length, kind. -/
structure MsgEntity where
  offset : Nat
  length : Nat
  kind : EntityKind
deriving DecidableEq

/-- Comparison used by `matches.sort(key=lambda x: x[0])`. -/
def startLe (a b : GlyphMatch) : Prop := a.start ≤ b.start

instance : DecidableRel startLe :=
  fun a b => inferInstanceAs (Decidable (a.start ≤ b.start))

/-- Comparison used by `final_entities.sort(key=lambda e: e.offset)`. -/
def offLe (a b : MsgEntity) : Prop := a.offset ≤ b.offset

instance : DecidableRel offLe :=
  fun a b => inferInstanceAs (Decidable (a.offset ≤ b.offset))

instance : IsTotal MsgEntity offLe := ⟨fun a b => Nat.le_total a.offset b.offset⟩

instance : IsTrans MsgEntity offLe := ⟨fun _ _ _ h1 h2 => Nat.le_trans h1 h2⟩

/-- The `MessageEntityCustomEmoji` built for one match: offset and length are
UTF-16 code-unit counts obtained by encoding the prefix (resp. the key). -/
def entityOfMatch (text : List Char) (m : GlyphMatch) : MsgEntity :=
  MsgEntity.mk (utf16UnitLen (text.take m.start)) (utf16UnitLen m.key)
    (EntityKind.customEmoji m.docId)

/-- The `new_entities` list: matches sorted by start, each turned into a
custom-glyph entity. -/
def newGlyphEntities (gm : List (List Char × Nat)) (text : List Char) : List MsgEntity :=
  ((matchesFor gm text).insertionSort startLe).map (entityOfMatch text)

/-- The compositor step of `process_single_message`: when at least one
emoji-map key occurs, append the new custom-glyph entities to the existing
ones and sort the union by offset; otherwise keep the existing entities. -/
def composeEntities (gm : List (List Char × Nat)) (text : List Char)
    (existing : List MsgEntity) : List MsgEntity :=
  if matchesFor gm text = [] then existing
  else (existing ++ newGlyphEntities gm text).insertionSort offLe

/-! Enhancement Pipeline (src/telsuit_enhancer.py, `process_single_message`)

The Telethon markdown parse is modelled as the identity on the text (none of
the verified properties involve markdown syntax), so `parsed_text` is the
event's text and `parsed_entities` are the event's entities. -/

/-- A queued event's source post, with the fields `process_single_message`
inspects: id, text, presence of `edit_date`, presence of `reply_markup`, the
`is_channel` flag and the parsed entities. -/
structure EventMsg where
  id : Nat
  text : List Char
  hasEditDate : Bool
  hasReplyMarkup : Bool
  isChannel : Bool
  entities : List MsgEntity
deriving DecidableEq

/-- One platform call requested while processing a task. -/
inductive PlatAction where
  | deleteMsgs (ids : List Nat)
  | sendMsg (text : List Char) (entities : List MsgEntity)
  | editMsg (text : List Char) (entities : List MsgEntity)
  | runCleaner
deriving DecidableEq

/-- The literal `"شناسه محصول"` whose containment gates the button logic. -/
def productMarker : List Char := "شناسه محصول".toList

/-- Python `needle in haystack`: the literal occurs at some position. -/
def containsLit (needle : List Char) : List Char → Bool
  | [] => (stripLit needle []).isSome
  | c :: rest => (stripLit needle (c :: rest)).isSome || containsLit needle rest

/-- The pattern `شناسه\s*محصول[:：]?\s*(\d+)` anchored at the front of `s`
(no IGNORECASE flag is set on this search in the source).  The optional
delimiter cannot backtrack usefully because `\s`, `[:：]` and `\d` are
pairwise disjoint classes. -/
def matchProductAt (s : List Char) : Option (List Char) :=
  match stripLit "شناسه".toList s with
  | none => none
  | some s1 =>
    match stripLit "محصول".toList (s1.dropWhile isPyWs) with
    | none => none
    | some s3 =>
      let s4 := match s3 with
        | d :: s' => if d = ':' || d = '：' then s' else s3
        | [] => s3
      let capd := (s4.dropWhile isPyWs).takeWhile isDigitU
      if capd = [] then none else some capd

/-- Model of `re.search` for the product-id pattern. -/
def searchProduct : List Char → Option (List Char)
  | [] => matchProductAt []
  | c :: rest =>
    match matchProductAt (c :: rest) with
    | some r => some r
    | none => searchProduct rest

/-- Flag `button_update_needed`: the text contains the product marker, the post has
no inline buttons yet, and the product-id regex matches. -/
def buttonNeededB (ev : EventMsg) : Bool :=
  containsLit productMarker ev.text && !ev.hasReplyMarkup &&
    (searchProduct ev.text).isSome

/-- Flag `emoji_update_needed`: some emoji-map key occurs in the parsed text. -/
def emojiNeededB (gm : List (List Char × Nat)) (ev : EventMsg) : Bool :=
  !(matchesFor gm ev.text).isEmpty

/-- Embedding of `process_single_message`, as the ordered list of platform calls it
requests.  Empty text returns immediately; if neither an emoji nor a button
update is needed the task short-circuits before the try/finally, so the
cleaner hook is not reached; a required button is applied by deleting the
source post and sending a replacement, otherwise the post is edited; the
finally-block skips the cleaner when (`not button_update_needed and
edit_date`) or when the event is not from a channel. -/
def process_single_message (gm : List (List Char × Nat)) (ev : EventMsg) : List PlatAction :=
  if ev.text = [] then []
  else
    let entitiesToUse :=
      if emojiNeededB gm ev then composeEntities gm ev.text ev.entities
      else ev.entities
    if !emojiNeededB gm ev && !buttonNeededB ev then []
    else
      let mainActs :=
        if buttonNeededB ev then
          [PlatAction.deleteMsgs [ev.id], PlatAction.sendMsg ev.text entitiesToUse]
        else
          [PlatAction.editMsg ev.text entitiesToUse]
      let cleanerActs :=
        if !buttonNeededB ev && ev.hasEditDate then []
        else if !ev.isChannel then []
        else [PlatAction.runCleaner]
      mainActs ++ cleanerActs

/-! Batch Deletion Executor (src/telsuit_cleaner.py, `_delete_messages`)

The Messaging Client's `delete_messages` call is modelled by a predicate
`ok : List Nat → Bool` saying whether the call for a given batch succeeds; a
failing call raises, which aborts the whole function (there is no per-batch
exception handler in the source), recorded as `count = none`. -/

/-- Outcome of `_delete_messages`: the batch calls issued in order, and the
returned count (`none` when a failing call propagated an exception). -/
structure DelResult where
  calls : List (List Nat)
  count : Option Nat
deriving DecidableEq

/-- The loop of `_delete_messages`: accumulate ids into `batch`, flush each
time the batch reaches 50, flush the remainder at the end. -/
def delGo (ok : List Nat → Bool) : List Nat → List Nat → Nat → List (List Nat) → DelResult
  | [], batch, deleted, calls =>
    if batch = [] then DelResult.mk calls (some deleted)
    else if ok batch then DelResult.mk (calls ++ [batch]) (some (deleted + batch.length))
    else DelResult.mk (calls ++ [batch]) none
  | mid :: rest, batch, deleted, calls =>
    let b := batch ++ [mid]
    if 50 ≤ b.length then
      if ok b then delGo ok rest [] (deleted + b.length) (calls ++ [b])
      else DelResult.mk (calls ++ [b]) none
    else delGo ok rest b deleted calls

/-- Embedding of `_delete_messages(client, chat_id, msg_ids)`. -/
def delete_messages (ok : List Nat → Bool) (ids : List Nat) : DelResult :=
  delGo ok ids [] 0 []

/-- The partition the spec describes: successive batches of 50 with a final
smaller remainder batch.  (Spec-side definition, compared with
`delete_messages` in the refinement theorem.) -/
def chunksOf50 : List Nat → List (List Nat)
  | [] => []
  | c :: rest => ((c :: rest).take 50) :: chunksOf50 ((c :: rest).drop 50)
termination_by l => l.length
decreasing_by
  simp only [List.length_drop, List.length_cons]
  omega

/-! Duplicate Grouping Engine (src/telsuit_cleaner.py) -/

/-- A scanned post: platform id and raw text. -/
structure PostSnapshot where
  id : Nat
  text : List Char
deriving DecidableEq

/-- Embedding of `groups.setdefault(sku, []).append(msg.id)`. -/
def addToGroup (groups : List (List Char × List Nat)) (sku : List Char) (i : Nat) :
    List (List Char × List Nat) :=
  match groups with
  | [] => [(sku, [i])]
  | (s, ids) :: rest =>
    if s = sku then (s, ids ++ [i]) :: rest else (s, ids) :: addToGroup rest sku i

/-- The scan loop of `_build_sku_groups`: posts in iteration order, each
contributing its id to the group of its extracted SKU, if any. -/
def buildGroups (keyword : List Char) (groups : List (List Char × List Nat)) :
    List PostSnapshot → List (List Char × List Nat)
  | [] => groups
  | p :: rest =>
    match extract_sku p.text keyword with
    | some sku => buildGroups keyword (addToGroup groups sku p.id) rest
    | none => buildGroups keyword groups rest

/-- Embedding of `_build_sku_groups(client, chat_id, keyword)` over a history snapshot. -/
def build_sku_groups (keyword : List Char) (history : List PostSnapshot) :
    List (List Char × List Nat) :=
  buildGroups keyword [] history

/-- The per-SKU deletion-plan entry of `_menu_remove_duplicates`: sort the
group's ids, keep the last (largest), delete the ids different from it; emit
no entry when nothing is to delete. -/
def planEntry (sku : List Char) (ids : List Nat) : Option (List Char × List Nat × Nat) :=
  let s := ids.insertionSort (· ≤ ·)
  match s.getLast? with
  | none => none
  | some keep =>
    let toDelete := s.filter (fun m => m != keep)
    if toDelete = [] then none else some (sku, toDelete, keep)

/-- The deletion plan built from the SKU groups. -/
def build_plan (groups : List (List Char × List Nat)) :
    List (List Char × List Nat × Nat) :=
  groups.filterMap (fun g => planEntry g.1 g.2)

/-- All post ids collected in a group list, in group order. -/
def groupIds (groups : List (List Char × List Nat)) : List Nat :=
  (groups.map Prod.snd).flatten

/-! Helper lemmas -/

theorem stripCI_self : ∀ (k r : List Char), stripCI k (k ++ r) = some r
  | [], _ => rfl
  | c :: ks, r => by simp [stripCI, stripCI_self ks r]

theorem dropWhile_sat_append (p : Char → Bool) :
    ∀ (ws rest : List Char), (∀ c ∈ ws, p c = true) →
      (ws ++ rest).dropWhile p = rest.dropWhile p
  | [], _, _ => rfl
  | w :: ws, rest, h => by
    simp only [List.cons_append, List.dropWhile_cons, h w (by simp)]
    exact dropWhile_sat_append p ws rest (fun c hc => h c (by simp [hc]))

theorem searchSku_of_matchAt (cap : Char → Bool) (keyword text r : List Char)
    (h : matchSkuAt cap keyword text = some r) :
    searchSku cap keyword text = some r := by
  cases text with
  | nil => simpa [searchSku] using h
  | cons c rest => simp [searchSku, h]

/-! Claim theorems -/

/-- C3, counterexample: the claim lists `-` among the supported delimiters,
but `_extract_sku`'s patterns accept only `:` and `：`; on
`"code-SKU123"` with keyword `"code"` extraction fails instead of returning
`"SKU123"`. -/
theorem C3_counterexample :
    extract_sku "code-SKU123".toList "code".toList = none := by decide

/-- C3 (amended): for every keyword, every delimiter from `{:, ：}` (the two
the code accepts; `-`, `_`, `=` are not delimiters), and arbitrary
whitespace runs around the delimiter, a text of the form
`keyword ⟨ws⟩ delim ⟨ws⟩ SKU123` makes `extract_sku` return exactly
`"SKU123"`. -/
theorem C3_extract_sku_colon (keyword ws1 ws2 : List Char) (d : Char)
    (hd : d = ':' ∨ d = '：')
    (h1 : ∀ c ∈ ws1, isPyWs c = true)
    (h2 : ∀ c ∈ ws2, isPyWs c = true) :
    extract_sku (keyword ++ (ws1 ++ (d :: (ws2 ++ "SKU123".toList)))) keyword
      = some "SKU123".toList := by
  have hdw : isPyWs d = false := by rcases hd with h | h <;> subst h <;> decide
  have hmatch : matchSkuAt isSkuChar keyword
      (keyword ++ (ws1 ++ (d :: (ws2 ++ "SKU123".toList)))) = some "SKU123".toList := by
    have hstrip : stripCI keyword (keyword ++ (ws1 ++ (d :: (ws2 ++ "SKU123".toList))))
        = some (ws1 ++ (d :: (ws2 ++ "SKU123".toList))) := stripCI_self _ _
    unfold matchSkuAt
    rw [hstrip]
    dsimp only
    rw [dropWhile_sat_append isPyWs ws1 _ h1]
    rw [List.dropWhile_cons, hdw]
    simp only [Bool.false_eq_true, if_false]
    have hdelim : (d = ':' || d = '：') = true := by
      rcases hd with h | h <;> subst h <;> decide
    rw [if_pos hdelim]
    rw [dropWhile_sat_append isPyWs ws2 _ h2]
    decide
  have hsearch := searchSku_of_matchAt isSkuChar keyword _ _ hmatch
  unfold extract_sku
  rw [hsearch]

/-! Compositor lemmas -/

theorem utf16LEBytesChar_length (c : Char) :
    (utf16LEBytesChar c).length = 2 * utf16Units c := by
  simp only [utf16LEBytesChar, utf16Units]
  split <;> rfl

theorem utf16LEBytes_length (s : List Char) :
    (utf16LEBytes s).length = 2 * (s.map utf16Units).sum := by
  induction s with
  | nil => rfl
  | cons c t ih =>
    simp only [utf16LEBytes, List.map_cons, List.flatten_cons, List.length_append,
      List.sum_cons] at ih ⊢
    rw [utf16LEBytesChar_length, ih]
    ring

theorem utf16UnitLen_eq_sum (s : List Char) :
    utf16UnitLen s = (s.map utf16Units).sum := by
  rw [utf16UnitLen, utf16LEBytes_length]
  omega

theorem one_le_utf16Units (c : Char) : 1 ≤ utf16Units c := by
  rw [utf16Units]; split <;> decide

theorem length_le_sum_utf16Units (s : List Char) :
    s.length ≤ (s.map utf16Units).sum := by
  induction s with
  | nil => simp
  | cons c t ih =>
    have := one_le_utf16Units c
    simp only [List.length_cons, List.map_cons, List.sum_cons]
    omega

theorem length_lt_sum_utf16Units (s : List Char)
    (h : ∃ c ∈ s, 0x10000 ≤ c.toNat) :
    s.length < (s.map utf16Units).sum := by
  induction s with
  | nil => simp at h
  | cons c t ih =>
    simp only [List.length_cons, List.map_cons, List.sum_cons]
    rcases h with ⟨x, hx, hxa⟩
    rcases List.mem_cons.mp hx with rfl | hxt
    · have h2 : utf16Units x = 2 := by rw [utf16Units]; rw [if_neg (by omega)]
      have := length_le_sum_utf16Units t
      omega
    · have := ih ⟨x, hxt, hxa⟩
      have := one_le_utf16Units c
      omega

theorem composeEntities_perm (gm : List (List Char × Nat)) (text : List Char)
    (ex : List MsgEntity) :
    (composeEntities gm text ex).Perm (ex ++ newGlyphEntities gm text) := by
  unfold composeEntities
  split
  · rename_i h
    simp [newGlyphEntities, h]
  · exact List.perm_insertionSort offLe _

/-- C4, counterexample: feeding the compositor's own output back in as
`existingRanges` does not stop it from re-emitting a custom-glyph range for
the already-covered occurrence of the key at offset 0 — the second run
produces the same range twice. -/
theorem C4_counterexample :
    composeEntities [("😀".toList, 5)] "😀".toList
        (composeEntities [("😀".toList, 5)] "😀".toList [])
      = [MsgEntity.mk 0 2 (EntityKind.customEmoji 5),
         MsgEntity.mk 0 2 (EntityKind.customEmoji 5)] ∧
    composeEntities [("😀".toList, 5)] "😀".toList []
      = [MsgEntity.mk 0 2 (EntityKind.customEmoji 5)] := by
  exact ⟨by decide, by decide⟩

/-- C4 (amended): composition is not idempotent — the compositor never
consults `existingRanges` when emitting glyph ranges, so every run adds one
custom-glyph range per key occurrence and the output length is always
`|existingRanges| + number of occurrences`. -/
theorem C4_compose_not_idempotent (gm : List (List Char × Nat)) (text : List Char)
    (ex : List MsgEntity) :
    (composeEntities gm text ex).length = ex.length + (matchesFor gm text).length := by
  rw [(composeEntities_perm gm text ex).length_eq]
  simp [newGlyphEntities, (List.perm_insertionSort startLe (matchesFor gm text)).length_eq]

/-- C5, counterexample: with an existing range overlapping the new glyph
range (both cover UTF-16 span [0,1)), the compositor emits the merged
overlapping set — there is no RangeConflict failure anywhere in the code. -/
theorem C5_counterexample :
    composeEntities [("A".toList, 9)] "A".toList [MsgEntity.mk 0 1 (EntityKind.other 3)]
      = [MsgEntity.mk 0 1 (EntityKind.other 3),
         MsgEntity.mk 0 1 (EntityKind.customEmoji 9)] := by decide

/-- C5 (amended): the compositor never fails: its output is always a
permutation of `existingRanges ++ newGlyphEntities` — every range, including
overlapping ones, is emitted — and whenever some key matches, the merged
set is sorted by offset. -/
theorem C5_compose_total (gm : List (List Char × Nat)) (text : List Char)
    (ex : List MsgEntity) :
    (composeEntities gm text ex).Perm (ex ++ newGlyphEntities gm text) ∧
    (matchesFor gm text ≠ [] → (composeEntities gm text ex).Sorted offLe) := by
  refine ⟨composeEntities_perm gm text ex, fun h => ?_⟩
  unfold composeEntities
  rw [if_neg h]
  exact List.sorted_insertionSort offLe _

/-- C5 witness: a glyph match exists, so the merged output is sorted. -/
theorem C5_witness :
    matchesFor [("B".toList, 4)] "xB".toList ≠ [] ∧
    (composeEntities [("B".toList, 4)] "xB".toList
        [MsgEntity.mk 1 1 (EntityKind.other 2)]).Sorted offLe :=
  ⟨by decide,
   (C5_compose_total [("B".toList, 4)] "xB".toList
     [MsgEntity.mk 1 1 (EntityKind.other 2)]).2 (by decide)⟩

/-- C9 (confirmed): for every key occurrence found in the text, the composed
output contains a custom-glyph entity whose offset is the number of UTF-16
code units of the text's prefix up to the match start (the byte length of
the UTF-16 encoding divided by 2 equals the code-unit sum), whose length is
the key's UTF-16 code-unit count; the offset is at least the scalar index
and strictly greater whenever the prefix contains an astral scalar
(surrogate pair). -/
theorem C9_utf16_offsets (gm : List (List Char × Nat)) (text : List Char)
    (ex : List MsgEntity) (m : GlyphMatch) (hm : m ∈ matchesFor gm text) :
    ∃ e ∈ composeEntities gm text ex,
      e.kind = EntityKind.customEmoji m.docId ∧
      e.offset = ((text.take m.start).map utf16Units).sum ∧
      e.length = (m.key.map utf16Units).sum ∧
      (text.take m.start).length ≤ e.offset ∧
      ((∃ c ∈ text.take m.start, 0x10000 ≤ c.toNat) →
        (text.take m.start).length < e.offset) := by
  refine ⟨entityOfMatch text m, ?_, rfl, ?_, ?_, ?_, ?_⟩
  · have h1 : entityOfMatch text m ∈ newGlyphEntities gm text := by
      exact List.mem_map_of_mem (entityOfMatch text)
        ((List.mem_insertionSort startLe).mpr hm)
    exact (composeEntities_perm gm text ex).mem_iff.mpr
      (List.mem_append_right ex h1)
  · exact utf16UnitLen_eq_sum _
  · exact utf16UnitLen_eq_sum _
  · rw [entityOfMatch]
    rw [utf16UnitLen_eq_sum]
    exact length_le_sum_utf16Units _
  · intro h
    rw [entityOfMatch]
    rw [utf16UnitLen_eq_sum]
    exact length_lt_sum_utf16Units _ h

/-- C9 witness: text `😀X`, key `X`: the match starts at scalar index 1 but
the emitted offset is 2, because the emoji occupies two UTF-16 units. -/
theorem C9_witness :
    GlyphMatch.mk 1 2 "X".toList 7 ∈ matchesFor [("X".toList, 7)] "😀X".toList ∧
    (composeEntities [("X".toList, 7)] "😀X".toList []).map MsgEntity.offset = [2] ∧
    (∃ e ∈ composeEntities [("X".toList, 7)] "😀X".toList [],
      e.kind = EntityKind.customEmoji (GlyphMatch.mk 1 2 "X".toList 7).docId ∧
      e.offset = (("😀X".toList.take (GlyphMatch.mk 1 2 "X".toList 7).start).map utf16Units).sum ∧
      e.length = ((GlyphMatch.mk 1 2 "X".toList 7).key.map utf16Units).sum ∧
      ("😀X".toList.take (GlyphMatch.mk 1 2 "X".toList 7).start).length ≤ e.offset ∧
      ((∃ c ∈ "😀X".toList.take (GlyphMatch.mk 1 2 "X".toList 7).start, 0x10000 ≤ c.toNat) →
        ("😀X".toList.take (GlyphMatch.mk 1 2 "X".toList 7).start).length < e.offset)) :=
  ⟨by decide, by decide,
   C9_utf16_offsets [("X".toList, 7)] "😀X".toList []
     (GlyphMatch.mk 1 2 "X".toList 7) (by decide)⟩

/-- C1, counterexample: an edited-post event (edit timestamp present) whose
text matches the keyword+SKU product pattern and which needs a button takes
the delete-and-send path, and the finally-block guard
(`not button_update_needed and edit_date`) then lets the cleaner hook run. -/
theorem C1_counterexample :
    (EventMsg.mk 10 "شناسه محصول: 127".toList true false true []).hasEditDate = true ∧
    PlatAction.runCleaner ∈ process_single_message []
      (EventMsg.mk 10 "شناسه محصول: 127".toList true false true []) :=
  ⟨rfl, by decide⟩

/-- C1 (amended): the post-hook runs exactly when the task required some
change, the origin is a channel, and either the post has no edit timestamp
or the change included the button replacement (which deletes the source and
sends a new post); in particular an edited post that needs a button does
trigger the hook. -/
theorem C1_cleaner_trigger (gm : List (List Char × Nat)) (ev : EventMsg) :
    PlatAction.runCleaner ∈ process_single_message gm ev ↔
      (ev.text ≠ [] ∧ (emojiNeededB gm ev || buttonNeededB ev) = true ∧
       ev.isChannel = true ∧ (buttonNeededB ev || !ev.hasEditDate) = true) := by
  unfold process_single_message
  by_cases ht : ev.text = [] <;>
    cases he : emojiNeededB gm ev <;>
    cases hb : buttonNeededB ev <;>
    cases hc : ev.isChannel <;>
    cases hd : ev.hasEditDate <;>
    simp_all

/-- C2, counterexample: a new channel post that needs a button is not applied
through an edit — the pipeline requests deletion of the source post (id 11)
and sends a replacement message. -/
theorem C2_counterexample :
    PlatAction.deleteMsgs [11] ∈ process_single_message []
      (EventMsg.mk 11 "شناسه محصول: 127".toList false false true []) := by decide

/-- C2 (amended): the pipeline deletes the source post exactly when a button
update is required (delete-and-send replaces editing on that path); an
apply-edit call is issued exactly on the emoji-only path. -/
theorem C2_edit_vs_delete (gm : List (List Char × Nat)) (ev : EventMsg) :
    (PlatAction.deleteMsgs [ev.id] ∈ process_single_message gm ev ↔
      (ev.text ≠ [] ∧ buttonNeededB ev = true)) ∧
    ((∃ t ents, PlatAction.editMsg t ents ∈ process_single_message gm ev) ↔
      (ev.text ≠ [] ∧ emojiNeededB gm ev = true ∧ buttonNeededB ev = false)) := by
  unfold process_single_message
  constructor <;>
  · by_cases ht : ev.text = [] <;>
      cases he : emojiNeededB gm ev <;>
      cases hb : buttonNeededB ev <;>
      cases hc : ev.isChannel <;>
      cases hd : ev.hasEditDate <;>
      simp_all

/-! Batch-deletion lemmas -/

theorem chunksOf50_ne_nil_eq (l : List Nat) (h : l ≠ []) :
    chunksOf50 l = l.take 50 :: chunksOf50 (l.drop 50) := by
  cases l with
  | nil => exact absurd rfl h
  | cons c rest => rw [chunksOf50]

theorem delGo_all_ok (ok : List Nat → Bool) (hok : ∀ b, ok b = true) :
    ∀ (rest batch : List Nat) (deleted : Nat) (calls : List (List Nat)),
      batch.length < 50 →
      delGo ok rest batch deleted calls =
        DelResult.mk (calls ++ chunksOf50 (batch ++ rest))
          (some (deleted + batch.length + rest.length)) := by
  intro rest
  induction rest with
  | nil =>
    intro batch deleted calls hb
    by_cases hbe : batch = []
    · subst hbe
      simp [delGo, chunksOf50]
    · have ht : batch.take 50 = batch := List.take_of_length_le (Nat.le_of_lt hb)
      have hdp : batch.drop 50 = [] := List.drop_eq_nil_of_le (Nat.le_of_lt hb)
      simp [delGo, hbe, hok batch, chunksOf50_ne_nil_eq batch hbe, ht, hdp, chunksOf50]
  | cons mid rest ih =>
    intro batch deleted calls hb
    by_cases h50 : 50 ≤ (batch ++ [mid]).length
    · have hlen : (batch ++ [mid]).length = 50 := by
        simp only [List.length_append, List.length_cons, List.length_nil] at h50 ⊢
        omega
      conv_lhs => simp only [delGo]
      rw [if_pos h50, if_pos (hok (batch ++ [mid])),
        ih [] (deleted + (batch ++ [mid]).length) (calls ++ [batch ++ [mid]]) (by decide)]
      have hbr : batch ++ mid :: rest = (batch ++ [mid]) ++ rest := by simp
      have htake : ((batch ++ [mid]) ++ rest).take 50 = batch ++ [mid] := by
        rw [List.take_append_eq_append_take, hlen, Nat.sub_self, List.take_zero,
          List.append_nil, List.take_of_length_le (le_of_eq hlen)]
      have hdrop : ((batch ++ [mid]) ++ rest).drop 50 = rest := by
        rw [List.drop_append_eq_append_drop, hlen, Nat.sub_self, List.drop_zero,
          List.drop_eq_nil_of_le (le_of_eq hlen), List.nil_append]
      rw [hbr, chunksOf50_ne_nil_eq ((batch ++ [mid]) ++ rest) (by simp), htake, hdrop]
      simp only [DelResult.mk.injEq, Option.some.injEq, List.nil_append,
        List.length_nil, List.length_append, List.length_cons]
      constructor
      · simp
      · omega
    · have hb' : (batch ++ [mid]).length < 50 := Nat.lt_of_not_le h50
      simp only [delGo, if_neg h50]
      rw [ih (batch ++ [mid]) deleted calls hb']
      have hbr : (batch ++ [mid]) ++ rest = batch ++ mid :: rest := by simp
      rw [hbr]
      simp only [DelResult.mk.injEq, Option.some.injEq, List.length_append,
        List.length_cons, List.length_nil, true_and]
      omega

/-- C8 (confirmed): when every batch deletion call succeeds,
`delete_messages` issues exactly the in-order partition of the ids into
batches of 50 with a smaller final remainder batch, one call per batch, and
returns the full list length. -/
theorem C8_delete_messages_batches (ok : List Nat → Bool) (ids : List Nat)
    (hok : ∀ b, ok b = true) :
    delete_messages ok ids = DelResult.mk (chunksOf50 ids) (some ids.length) := by
  have h := delGo_all_ok ok hok ids [] 0 [] (by decide)
  simpa [delete_messages] using h

/-- C8 witness: 127 ids produce exactly 3 batch calls of sizes 50, 50 and
27, and the returned count is 127. -/
theorem C8_witness :
    (∀ b : List Nat, (fun _ : List Nat => true) b = true) ∧
    delete_messages (fun _ => true) (List.range 127)
      = DelResult.mk (chunksOf50 (List.range 127)) (some 127) ∧
    (delete_messages (fun _ => true) (List.range 127)).calls.map List.length
      = [50, 50, 27] :=
  ⟨fun _ => rfl,
   by rw [C8_delete_messages_batches (fun _ => true) (List.range 127) (fun _ => rfl)]
      simp,
   by decide⟩

theorem delGo_count (ok : List Nat → Bool) :
    ∀ (rest batch : List Nat) (deleted : Nat) (calls : List (List Nat)),
      (∀ n, (delGo ok rest batch deleted calls).count = some n →
        n = deleted + batch.length + rest.length ∧
        (∀ c ∈ (delGo ok rest batch deleted calls).calls, c ∈ calls ∨ ok c = true)) ∧
      ((delGo ok rest batch deleted calls).count = none →
        ∃ pre fl, (delGo ok rest batch deleted calls).calls = calls ++ pre ++ [fl] ∧
          ok fl = false) := by
  intro rest
  induction rest with
  | nil =>
    intro batch deleted calls
    by_cases hbe : batch = []
    · subst hbe
      constructor
      · intro n hn
        simp only [delGo, if_pos rfl] at hn ⊢
        exact ⟨by simpa using hn.symm, fun c hc => Or.inl hc⟩
      · intro hn
        simp [delGo] at hn
    · by_cases hok : ok batch = true
      · constructor
        · intro n hn
          simp only [delGo, if_neg hbe, if_pos hok] at hn ⊢
          refine ⟨by simpa using hn.symm, fun c hc => ?_⟩
          rcases List.mem_append.mp hc with h | h
          · exact Or.inl h
          · simp only [List.mem_singleton] at h
            exact Or.inr (h ▸ hok)
        · intro hn
          simp [delGo, hbe, hok] at hn
      · constructor
        · intro n hn
          simp [delGo, hbe, hok] at hn
        · intro _
          refine ⟨[], batch, ?_, by simpa using hok⟩
          simp [delGo, hbe, hok]
  | cons mid rest ih =>
    intro batch deleted calls
    by_cases h50 : 50 ≤ (batch ++ [mid]).length
    · by_cases hok : ok (batch ++ [mid]) = true
      · have hstep : delGo ok (mid :: rest) batch deleted calls
            = delGo ok rest [] (deleted + (batch ++ [mid]).length)
                (calls ++ [batch ++ [mid]]) := by
          conv_lhs => simp only [delGo]
          rw [if_pos h50, if_pos hok]
        constructor
        · intro n hn
          rw [hstep] at hn ⊢
          rcases (ih [] (deleted + (batch ++ [mid]).length)
              (calls ++ [batch ++ [mid]])).1 n hn with ⟨hn', hcalls⟩
          refine ⟨?_, fun c hc => ?_⟩
          · simp only [List.length_nil, List.length_append, List.length_cons,
              List.length_nil] at hn' ⊢
            omega
          · rcases hcalls c hc with h | h
            · rcases List.mem_append.mp h with h' | h'
              · exact Or.inl h'
              · simp only [List.mem_singleton] at h'
                exact Or.inr (h' ▸ hok)
            · exact Or.inr h
        · intro hn
          rw [hstep] at hn ⊢
          rcases (ih [] (deleted + (batch ++ [mid]).length)
              (calls ++ [batch ++ [mid]])).2 hn with ⟨pre, fl, hcalls, hfl⟩
          refine ⟨(batch ++ [mid]) :: pre, fl, ?_, hfl⟩
          rw [hcalls]
          simp
      · have hstep : delGo ok (mid :: rest) batch deleted calls
            = DelResult.mk (calls ++ [batch ++ [mid]]) none := by
          conv_lhs => simp only [delGo]
          rw [if_pos h50, if_neg (by simp [hok])]
        constructor
        · intro n hn
          rw [hstep] at hn
          simp at hn
        · intro _
          rw [hstep]
          exact ⟨[], batch ++ [mid], by simp, by simpa using hok⟩
    · have hstep : delGo ok (mid :: rest) batch deleted calls
          = delGo ok rest (batch ++ [mid]) deleted calls := by
        conv_lhs => simp only [delGo]
        rw [if_neg h50]
      constructor
      · intro n hn
        rw [hstep] at hn ⊢
        rcases (ih (batch ++ [mid]) deleted calls).1 n hn with ⟨hn', hcalls⟩
        refine ⟨?_, hcalls⟩
        simp only [List.length_append, List.length_cons, List.length_nil] at hn' ⊢
        omega
      · intro hn
        rw [hstep] at hn ⊢
        exact (ih (batch ++ [mid]) deleted calls).2 hn

/-- C6, counterexample: with 100 ids where the first batch's deletion call
fails, `delete_messages` issues only that one call — the second batch is
never attempted — and no count is returned (the exception propagates),
contradicting "logs and continues with subsequent batches" and "returns the
number of ids in successful batches". -/
theorem C6_counterexample :
    (delete_messages (fun b => !b.contains 0) (List.range 100)).calls.length = 1 ∧
    (delete_messages (fun b => !b.contains 0) (List.range 100)).count = none :=
  ⟨by decide, by decide⟩

/-- C6 (amended): `_delete_messages` has no per-batch exception handling: a
count is returned only when every issued call succeeded, and then it equals
the full requested size; when a call fails, the function aborts — its call
trace ends at the failing batch and no count is returned. -/
theorem C6_delete_failure_aborts (ok : List Nat → Bool) (ids : List Nat) :
    (∀ n, (delete_messages ok ids).count = some n →
      n = ids.length ∧ ∀ c ∈ (delete_messages ok ids).calls, ok c = true) ∧
    ((delete_messages ok ids).count = none →
      ∃ pre fl, (delete_messages ok ids).calls = pre ++ [fl] ∧ ok fl = false) := by
  constructor
  · intro n hn
    rcases (delGo_count ok ids [] 0 []).1 n hn with ⟨hn', hcalls⟩
    refine ⟨by simpa using hn', fun c hc => ?_⟩
    rcases hcalls c hc with h | h
    · simp at h
    · exact h
  · intro hn
    rcases (delGo_count ok ids [] 0 []).2 hn with ⟨pre, fl, hcalls, hfl⟩
    exact ⟨pre, fl, by simpa using hcalls, hfl⟩

/-- C6 witness: a fully-successful run of 3 ids returns count 3 with one
successful call; a run whose first batch fails ends its trace at the
failing call with no count. -/
theorem C6_witness :
    (3 = ([1, 2, 3] : List Nat).length ∧
      ∀ c ∈ (delete_messages (fun _ => true) [1, 2, 3]).calls,
        (fun _ : List Nat => true) c = true) ∧
    (∃ pre fl, (delete_messages (fun b => !b.contains 0) (List.range 100)).calls
        = pre ++ [fl] ∧ (fun b : List Nat => !b.contains 0) fl = false) :=
  ⟨(C6_delete_failure_aborts (fun _ => true) [1, 2, 3]).1 3 (by decide),
   (C6_delete_failure_aborts (fun b => !b.contains 0) (List.range 100)).2 (by decide)⟩

/-! Deletion-plan lemmas -/

theorem sorted_le_getLast :
    ∀ (s : List Nat) (h : s ≠ []), s.Sorted (· ≤ ·) → ∀ x ∈ s, x ≤ s.getLast h
  | [], h, _, _, _ => absurd rfl h
  | [a], _, _, x, hx => by
    have hxa : x = a := by simpa using hx
    subst hxa
    simp [List.getLast_singleton]
  | a :: b :: t, _, hs, x, hx => by
    rw [List.getLast_cons (List.cons_ne_nil b t)]
    rcases List.mem_cons.mp hx with rfl | hxt
    · exact List.rel_of_sorted_cons hs _ (List.getLast_mem (List.cons_ne_nil b t))
    · exact sorted_le_getLast (b :: t) (List.cons_ne_nil b t) hs.of_cons x hxt

theorem length_filter_ne_of_nodup :
    ∀ (s : List Nat) (k : Nat), s.Nodup → k ∈ s →
      (s.filter (fun m => m != k)).length = s.length - 1
  | [], _, _, hk => by simp at hk
  | c :: t, k, hnd, hk => by
    rcases List.mem_cons.mp hk with rfl | hkt
    · have hct : k ∉ t := (List.nodup_cons.mp hnd).1
      have hft : t.filter (fun m => m != k) = t := by
        rw [List.filter_eq_self]
        intro a ha
        have : a ≠ k := fun he => hct (he ▸ ha)
        simpa using this
      simp [List.filter_cons, hft]
    · have hck : c ≠ k := by
        rintro rfl
        exact (List.nodup_cons.mp hnd).1 hkt
      have ht := length_filter_ne_of_nodup t k (List.nodup_cons.mp hnd).2 hkt
      have hpos : 1 ≤ t.length := List.length_pos.mpr (List.ne_nil_of_mem hkt)
      have hckb : (c != k) = true := by simpa using hck
      rw [List.filter_cons, if_pos hckb]
      simp only [List.length_cons, ht]
      omega

/-- C7 (confirmed): for a duplicate group with at least two (distinct) ids,
the plan entry keeps exactly the numerically largest id, deletes exactly the
other N−1 ids and never the kept one; a one-member group produces no
entry. -/
theorem C7_plan_keeps_max (sku : List Char) (ids : List Nat) (hnd : ids.Nodup) :
    (2 ≤ ids.length →
      ∃ toDel keep, planEntry sku ids = some (sku, toDel, keep) ∧
        keep ∈ ids ∧ (∀ x ∈ ids, x ≤ keep) ∧
        toDel.length = ids.length - 1 ∧ keep ∉ toDel ∧
        (∀ x, x ∈ toDel ↔ (x ∈ ids ∧ x ≠ keep))) ∧
    (ids.length = 1 → planEntry sku ids = none) := by
  constructor
  · intro h2
    have hperm : (ids.insertionSort (· ≤ ·)).Perm ids := List.perm_insertionSort _ ids
    have hsort : (ids.insertionSort (· ≤ ·)).Sorted (· ≤ ·) :=
      List.sorted_insertionSort _ ids
    have hlen : (ids.insertionSort (· ≤ ·)).length = ids.length := hperm.length_eq
    have hne : ids.insertionSort (· ≤ ·) ≠ [] := by
      intro he
      rw [he] at hlen
      simp at hlen
      omega
    have hnds : (ids.insertionSort (· ≤ ·)).Nodup := (hperm.nodup_iff).mpr hnd
    have hlast : (ids.insertionSort (· ≤ ·)).getLast? =
        some ((ids.insertionSort (· ≤ ·)).getLast hne) :=
      List.getLast?_eq_getLast _ hne
    have hkmem_s : (ids.insertionSort (· ≤ ·)).getLast hne ∈ ids.insertionSort (· ≤ ·) :=
      List.getLast_mem hne
    have hkmem : (ids.insertionSort (· ≤ ·)).getLast hne ∈ ids := hperm.subset hkmem_s
    have hmax : ∀ x ∈ ids, x ≤ (ids.insertionSort (· ≤ ·)).getLast hne := fun x hx =>
      sorted_le_getLast _ hne hsort x (hperm.mem_iff.mpr hx)
    have hlenf : ((ids.insertionSort (· ≤ ·)).filter
        (fun m => m != (ids.insertionSort (· ≤ ·)).getLast hne)).length
        = ids.length - 1 := by
      rw [length_filter_ne_of_nodup _ _ hnds hkmem_s, hlen]
    have htdne : (ids.insertionSort (· ≤ ·)).filter
        (fun m => m != (ids.insertionSort (· ≤ ·)).getLast hne) ≠ [] := by
      intro he
      rw [he] at hlenf
      simp at hlenf
      omega
    refine ⟨_, _, ?_, hkmem, hmax, hlenf, ?_, ?_⟩
    · simp only [planEntry]
      rw [hlast]
      dsimp only
      rw [if_neg htdne]
    · intro hmem
      rcases List.mem_filter.mp hmem with ⟨_, hf⟩
      simp at hf
    · intro x
      constructor
      · intro hx
        rcases List.mem_filter.mp hx with ⟨hxs, hfx⟩
        exact ⟨hperm.subset hxs, by simpa using hfx⟩
      · rintro ⟨hx1, hx2⟩
        exact List.mem_filter.mpr ⟨hperm.mem_iff.mpr hx1, by simpa using hx2⟩
  · intro h1
    rcases List.length_eq_one.mp h1 with ⟨a, rfl⟩
    simp [planEntry]

/-- C7 witness: the spec's scenario group `[1001, 1050, 1200]`. -/
theorem C7_witness :
    ([1001, 1050, 1200] : List Nat).Nodup ∧
    2 ≤ ([1001, 1050, 1200] : List Nat).length ∧
    (∃ toDel keep, planEntry "127".toList [1001, 1050, 1200]
        = some ("127".toList, toDel, keep) ∧
      keep ∈ [1001, 1050, 1200] ∧ (∀ x ∈ [1001, 1050, 1200], x ≤ keep) ∧
      toDel.length = ([1001, 1050, 1200] : List Nat).length - 1 ∧ keep ∉ toDel ∧
      (∀ x, x ∈ toDel ↔ (x ∈ [1001, 1050, 1200] ∧ x ≠ keep))) :=
  ⟨by decide, by decide,
   (C7_plan_keeps_max "127".toList [1001, 1050, 1200] (by decide)).1 (by decide)⟩

/-! SKU-group lemmas -/

theorem groupIds_cons (s : List Char) (ids : List Nat)
    (rest : List (List Char × List Nat)) :
    groupIds ((s, ids) :: rest) = ids ++ groupIds rest := by
  simp [groupIds]

theorem groupIds_addToGroup :
    ∀ (G : List (List Char × List Nat)) (sku : List Char) (i : Nat),
      (groupIds (addToGroup G sku i)).Perm (i :: groupIds G)
  | [], sku, i => by simp [groupIds, addToGroup]
  | (s, ids) :: rest, sku, i => by
    rw [addToGroup]
    by_cases h : s = sku
    · rw [if_pos h, groupIds_cons, groupIds_cons]
      have he : (ids ++ [i]) ++ groupIds rest = ids ++ i :: groupIds rest := by simp
      rw [he]
      exact List.perm_middle
    · rw [if_neg h, groupIds_cons, groupIds_cons]
      exact ((groupIds_addToGroup rest sku i).append_left ids).trans List.perm_middle

theorem groupIds_buildGroups (kw : List Char) :
    ∀ (hist : List PostSnapshot) (G : List (List Char × List Nat)),
      (groupIds (buildGroups kw G hist)).Perm
        (groupIds G ++
          (hist.filter (fun p => (extract_sku p.text kw).isSome)).map PostSnapshot.id)
  | [], G => by simp [buildGroups]
  | p :: rest, G => by
    rw [buildGroups]
    cases hx : extract_sku p.text kw with
    | none =>
      rw [List.filter_cons]
      simp only [hx, Option.isSome_none, Bool.false_eq_true, if_false]
      exact groupIds_buildGroups kw rest G
    | some sku =>
      rw [List.filter_cons]
      simp only [hx, Option.isSome_some, if_true, List.map_cons]
      refine (groupIds_buildGroups kw rest (addToGroup G sku p.id)).trans ?_
      refine ((groupIds_addToGroup G sku p.id).append_right _).trans ?_
      simp only [List.cons_append]
      exact List.perm_middle.symm

/-- C10 (confirmed): when the scanned history's post ids are distinct, the
SKU groups built by the bulk scan contain each id at most once and are
pairwise disjoint, because `extract_sku` contributes each post to at most
one SKU. -/
theorem C10_groups_disjoint (kw : List Char) (hist : List PostSnapshot)
    (hnd : (hist.map PostSnapshot.id).Nodup) :
    (∀ g ∈ build_sku_groups kw hist, (g.2 : List Nat).Nodup) ∧
    ((build_sku_groups kw hist).map Prod.snd).Pairwise List.Disjoint := by
  have hperm := groupIds_buildGroups kw hist []
  have hsub : ((hist.filter (fun p => (extract_sku p.text kw).isSome)).map
      PostSnapshot.id).Sublist (hist.map PostSnapshot.id) :=
    (List.filter_sublist hist).map PostSnapshot.id
  have hndf : ((hist.filter (fun p => (extract_sku p.text kw).isSome)).map
      PostSnapshot.id).Nodup := hnd.sublist hsub
  have hflat : ((build_sku_groups kw hist).map Prod.snd).flatten.Nodup := by
    have h := (hperm.nodup_iff).mpr (by simpa [groupIds] using hndf)
    simpa [groupIds, build_sku_groups] using h
  rcases List.nodup_flatten.mp hflat with ⟨h1, h2⟩
  exact ⟨fun g hg => h1 g.2 (List.mem_map_of_mem Prod.snd hg), h2⟩

/-- C10 witness: three posts, two sharing SKU 127, one without a SKU. -/
theorem C10_witness :
    (([PostSnapshot.mk 5 "شناسه محصول: 127".toList,
       PostSnapshot.mk 7 "no sku here".toList,
       PostSnapshot.mk 9 "شناسه محصول: 127 x".toList].map PostSnapshot.id).Nodup) ∧
    ((∀ g ∈ build_sku_groups "شناسه محصول".toList
        [PostSnapshot.mk 5 "شناسه محصول: 127".toList,
         PostSnapshot.mk 7 "no sku here".toList,
         PostSnapshot.mk 9 "شناسه محصول: 127 x".toList], (g.2 : List Nat).Nodup) ∧
      ((build_sku_groups "شناسه محصول".toList
        [PostSnapshot.mk 5 "شناسه محصول: 127".toList,
         PostSnapshot.mk 7 "no sku here".toList,
         PostSnapshot.mk 9 "شناسه محصول: 127 x".toList]).map Prod.snd).Pairwise
        List.Disjoint) :=
  ⟨by decide,
   C10_groups_disjoint "شناسه محصول".toList
     [PostSnapshot.mk 5 "شناسه محصول: 127".toList,
      PostSnapshot.mk 7 "no sku here".toList,
      PostSnapshot.mk 9 "شناسه محصول: 127 x".toList] (by decide)⟩

/-- C3 witness: keyword `"code"`, delimiter `:`, single spaces. -/
theorem C3_witness :
    ((':' : Char) = ':' ∨ (':' : Char) = '：') ∧
    (∀ c ∈ " ".toList, isPyWs c = true) ∧
    (∀ c ∈ "  ".toList, isPyWs c = true) ∧
    extract_sku ("code".toList ++ (" ".toList ++ (':' :: ("  ".toList ++ "SKU123".toList))))
      "code".toList = some "SKU123".toList :=
  ⟨Or.inl rfl, by decide, by decide,
   C3_extract_sku_colon "code".toList " ".toList "  ".toList ':'
     (Or.inl rfl) (by decide) (by decide)⟩
